import Mathlib

/-!
Verification development for the resumable segmentation-and-transcription
pipeline of the Lecture-Notes-Generator repository.  The definitions below
are shallow embeddings of the Python code in `continue_transcription.py` and
`clean_lecture_notes.py`; external effects (audio probing, the speech model,
file writes) are passed in as explicit environment values.
-/

namespace LectureNotes

/-- Fixed window length in milliseconds (`segment_length_ms = 30000` in
`continue_transcription.py`). -/
def segment_length_ms : Nat := 30000

/-- One audio segment record, mirroring the dicts built in
`continue_transcription.py` (fields `start_ms`, `end_ms`, `duration_ms`; the
`path` string plays no role in the bookkeeping and is omitted). -/
structure Seg where
  start_ms : Nat
  end_ms : Nat
  duration_ms : Nat
deriving DecidableEq, Repr

/-- Segment count of a fresh split (line 166):
`audio_length_ms // segment_length_ms + (1 if audio_length_ms % segment_length_ms > 0 else 0)`. -/
def num_segments (D : Nat) : Nat :=
  D / segment_length_ms + (if D % segment_length_ms > 0 then 1 else 0)

/-- Fresh segmentation (`else` branch, lines 157-182 of
`continue_transcription.py`): for `i` in `range(num_segments)`,
`start_ms = i * segment_length_ms`,
`end_ms = min((i + 1) * segment_length_ms, audio_length_ms)` and the slice
`audio[start_ms:end_ms]` has `duration_ms = end_ms - start_ms`. -/
def makeSegments (D : Nat) : List Seg :=
  (List.range (num_segments D)).map fun i =>
    { start_ms := i * segment_length_ms
      end_ms := min ((i + 1) * segment_length_ms) D
      duration_ms := min ((i + 1) * segment_length_ms) D - i * segment_length_ms }

/-- Reused segmentation (`if existing_segments` branch, lines 127-154): the
artifacts are sorted by the numeric index in their filename; for position `i`
in that order, `start_ms = i * segment_length_ms`, `duration_ms` is probed
from the artifact (`len(AudioSegment.from_file(segment_path))`) with the bare
`except` falling back to `segment_length_ms`, and
`end_ms = start_ms + duration_ms`.  The probe outcomes are the environment
input `probes`, given in sorted artifact order (`none` = probing raised). -/
def reuseSegments (probes : List (Option Nat)) : List Seg :=
  probes.enum.map fun p =>
    { start_ms := p.1 * segment_length_ms
      end_ms := p.1 * segment_length_ms + p.2.getD segment_length_ms
      duration_ms := p.2.getD segment_length_ms }

theorem num_segments_eq_ceilDiv (D : Nat) :
    num_segments D = D ⌈/⌉ segment_length_ms := by
  rw [Nat.ceilDiv_eq_add_pred_div]
  unfold num_segments segment_length_ms
  split <;> omega

theorem length_makeSegments (D : Nat) :
    (makeSegments D).length = num_segments D := by
  simp [makeSegments]

theorem makeSegments_get (D i : Nat) (hi : i < (makeSegments D).length) :
    (makeSegments D).get ⟨i, hi⟩ =
      { start_ms := i * segment_length_ms
        end_ms := min ((i + 1) * segment_length_ms) D
        duration_ms := min ((i + 1) * segment_length_ms) D - i * segment_length_ms } := by
  simp [makeSegments]

theorem lt_of_lt_num_segments (D i : Nat) (hi : i < num_segments D) :
    i * segment_length_ms < D := by
  unfold num_segments segment_length_ms at *
  split at hi <;> omega

/-- Claim C1: fresh segmentation of a recording of duration `D` ms with the
30000 ms window produces exactly `ceil(D / W)` segments; segment `i` has
`start = i * W` and `end = min((i + 1) * W, D)`; consecutive segments are
contiguous (no gaps or overlaps), every segment except possibly the last has
duration exactly `W`, the last ends at `D`, and no segment is longer than
`W`, so the `(start, end)` pairs tile `[0, D)`. -/
theorem C1_fresh_segmentation_tiles (D i : Nat) (hi : i < (makeSegments D).length) :
    (makeSegments D).length = D ⌈/⌉ segment_length_ms ∧
    ((makeSegments D).get ⟨i, hi⟩).start_ms = i * segment_length_ms ∧
    ((makeSegments D).get ⟨i, hi⟩).end_ms = min ((i + 1) * segment_length_ms) D ∧
    ((makeSegments D).get ⟨i, hi⟩).duration_ms
      = ((makeSegments D).get ⟨i, hi⟩).end_ms - ((makeSegments D).get ⟨i, hi⟩).start_ms ∧
    (i + 1 < (makeSegments D).length →
      ((makeSegments D).get ⟨i, hi⟩).end_ms = (i + 1) * segment_length_ms ∧
      ((makeSegments D).get ⟨i, hi⟩).duration_ms = segment_length_ms) ∧
    (i + 1 = (makeSegments D).length → ((makeSegments D).get ⟨i, hi⟩).end_ms = D) ∧
    ((makeSegments D).get ⟨i, hi⟩).duration_ms ≤ segment_length_ms := by
  have hlen := length_makeSegments D
  have hget := makeSegments_get D i hi
  have hin : i < num_segments D := by omega
  have hstart := lt_of_lt_num_segments D i hin
  refine ⟨by rw [hlen, num_segments_eq_ceilDiv], ?_, ?_, ?_, ?_, ?_, ?_⟩
  · rw [hget]
  · rw [hget]
  · rw [hget]
  · intro hlt
    have hin' : i + 1 < num_segments D := by omega
    have := lt_of_lt_num_segments D (i + 1) hin'
    rw [hget]
    constructor
    · simp only [Seg.mk.injEq]
      omega
    · simp only [Seg.mk.injEq]
      unfold segment_length_ms at *
      omega
  · intro hlast
    rw [hget]
    simp only
    have : i + 1 = num_segments D := by omega
    unfold num_segments segment_length_ms at *
    split at this <;> omega
  · rw [hget]
    simp only
    unfold segment_length_ms at *
    omega

/-- Witness for C1 at the spec's example: a 65000 ms recording splits into 3
segments and the last one, index 2, spans `[60000, 65000)`. -/
theorem C1_fresh_segmentation_tiles_witness :
    (makeSegments 65000).length = 65000 ⌈/⌉ segment_length_ms ∧
    ((makeSegments 65000).get ⟨2, by decide⟩).end_ms = 65000 := by
  have h := C1_fresh_segmentation_tiles 65000 2 (by decide)
  exact ⟨h.1, h.2.2.2.2.2.1 (by decide)⟩

/-!
### Cleanup filter (`clean_lecture_notes.py`)

`clean_lecture_notes` reads a file and applies, in order:
1. `re.sub(r'^# <think>\s*$', '', content, flags=re.MULTILINE)`
2. `re.sub(r'^### <think>\s*$', '', content, flags=re.MULTILINE)`
3. `re.sub(r'^</think>\s*$', '', content, flags=re.MULTILINE)`
4. `re.sub(r'<think>.*?</think>', '', content, flags=re.DOTALL)`
5. `content.replace('<think>', '').replace('</think>', '')`
6. `re.sub(r'\n{3,}', '\n\n', content)`

The embeddings below model these on `List Char`.  Recursions that resume
scanning after a deleted match are phrased with an explicit skip counter so
that they are structural (the kernel can evaluate them on literals); a call
with counter `k + 1` discards one character of the already-matched region and
continues with counter `k`.
-/

/-- The opening marker `<think>`. -/
def openTag : List Char := "<think>".data

/-- The closing marker `</think>`. -/
def closeTag : List Char := "</think>".data

/-- Models `\s*$` of a Python `re.MULTILINE` pattern, starting at the given
text: returns the length of the longest run of whitespace characters after
whose end the position is at end-of-string or immediately before a newline
(`$` in MULTILINE mode), or `none` when no such stopping point exists.
Backtracking greediness means the longest valid run wins. -/
def wsDollarLen : List Char → Option Nat
  | [] => some 0
  | c :: rest =>
    if c.isWhitespace then
      match wsDollarLen rest with
      | some n => some (n + 1)
      | none => if c == '\n' then some 0 else none
    else none

/-- Attempts to match `^MARKER\s*$` at the current position (the `^` anchor
itself is tracked by the caller): returns the total length of the match.  The
`marker.isEmpty` guard is a modeling artifact; all three markers used by the
code are nonempty. -/
def tryStandaloneLen (marker s : List Char) : Option Nat :=
  if marker.isEmpty then none
  else if marker.isPrefixOf s then
    (wsDollarLen (s.drop marker.length)).map (fun n => marker.length + n)
  else none

/-- Scanner for `re.sub(r'^MARKER\s*$', '', content, flags=re.MULTILINE)`.
The `Nat` is the skip counter for an in-progress deletion, the `Bool` records
whether the current position is at a line start (`^`).  After a deletion the
flag is reset to `false`; this is observationally equal to Python (which
re-evaluates `^` against the last matched character) because the remainder
after a match is empty or starts with `'\n'`, where no marker can match in
either case. -/
def ssAux (marker : List Char) : Nat → Bool → List Char → List Char
  | _ + 1, _, [] => []
  | k + 1, _, _ :: rest => ssAux marker k false rest
  | 0, _, [] => []
  | 0, atLineStart, c :: rest =>
    if atLineStart then
      match tryStandaloneLen marker (c :: rest) with
      | some n => ssAux marker (n - 1) false rest
      | none => c :: ssAux marker 0 (c == '\n') rest
    else c :: ssAux marker 0 (c == '\n') rest

/-- One standalone-marker-line substitution pass (steps 1-3 above). -/
def subStandalone (marker s : List Char) : List Char := ssAux marker 0 true s

/-- Length of the shortest prefix of the text that ends with the earliest
occurrence of `</think>` (the non-greedy `.*?</think>` continuation), or
`none` when no closing marker occurs. -/
def closeLen : List Char → Option Nat
  | [] => none
  | c :: rest =>
    if closeTag.isPrefixOf (c :: rest) then some closeTag.length
    else (closeLen rest).map (fun n => n + 1)

/-- Scanner for `re.sub(r'<think>.*?</think>', '', content, flags=re.DOTALL)`
(step 4): at each position, if `<think>` matches and a `</think>` occurs
later, the whole region through the earliest close is deleted and scanning
resumes after it; if `<think>` matches but no close follows, the position is
emitted and scanning moves on by one character, mirroring the failed regex
match attempt. -/
def spAux : Nat → List Char → List Char
  | _ + 1, [] => []
  | k + 1, _ :: rest => spAux k rest
  | 0, [] => []
  | 0, c :: rest =>
    if openTag.isPrefixOf (c :: rest) then
      match closeLen ((c :: rest).drop openTag.length) with
      | some m => spAux (openTag.length + m - 1) rest
      | none => c :: spAux 0 rest
    else c :: spAux 0 rest

/-- The paired-region removal pass (step 4). -/
def subPaired (s : List Char) : List Char := spAux 0 s

/-- Scanner for Python's `str.replace(pat, '')`: deletes the leftmost
occurrence of `pat`, resumes scanning immediately after it (the already
emitted output is never rescanned), and repeats. -/
def prAux (pat : List Char) : Nat → List Char → List Char
  | _ + 1, [] => []
  | k + 1, _ :: rest => prAux pat k rest
  | 0, [] => []
  | 0, c :: rest =>
    if pat.isPrefixOf (c :: rest) then prAux pat (pat.length - 1) rest
    else c :: prAux pat 0 rest

/-- Python `content.replace(pat, '')` (step 5); with an empty pattern Python
returns the content unchanged. -/
def pyReplaceAll (pat s : List Char) : List Char :=
  if pat.isEmpty then s else prAux pat 0 s

/-- What `re.sub(r'\n{3,}', '\n\n', ...)` emits for a maximal run of `n`
newlines: runs of three or more collapse to exactly two, shorter runs are
kept as they are. -/
def emitNL (n : Nat) : List Char :=
  if 3 ≤ n then ['\n', '\n'] else List.replicate n '\n'

/-- Scanner for `re.sub(r'\n{3,}', '\n\n', content)` (step 6); the counter
holds the number of pending newline characters of the current run. -/
def collapseAux : Nat → List Char → List Char
  | n, [] => emitNL n
  | n, c :: rest =>
    if c == '\n' then collapseAux (n + 1) rest
    else emitNL n ++ c :: collapseAux 0 rest

/-- The blank-line collapse pass (step 6). -/
def collapseNewlines (s : List Char) : List Char := collapseAux 0 s

/-- The full text transformation of `clean_lecture_notes` (lines 22-33 of
`clean_lecture_notes.py`), applying the six passes in program order. -/
def clean_notes (content : List Char) : List Char :=
  collapseNewlines
    (pyReplaceAll closeTag
      (pyReplaceAll openTag
        (subPaired
          (subStandalone closeTag
            (subStandalone ("### <think>".data)
              (subStandalone ("# <think>".data) content))))))

/-- String-level wrapper of the cleanup transformation. -/
def clean_lecture_notes_text (s : String) : String :=
  String.mk (clean_notes s.data)

/-- Substring occurrence test: `occursIn pat s` is `true` exactly when `pat`
occurs contiguously inside `s`. -/
def occursIn (pat : List Char) : List Char → Bool
  | [] => pat.isEmpty
  | c :: rest => pat.isPrefixOf (c :: rest) || occursIn pat rest

theorem isPrefixOf_iff_ex (p s : List Char) :
    p.isPrefixOf s = true ↔ ∃ t, s = p ++ t := by
  induction p generalizing s with
  | nil => simp
  | cons a as ih =>
    cases s with
    | nil => simp
    | cons b bs =>
      simp only [List.isPrefixOf_cons₂, Bool.and_eq_true, beq_iff_eq, ih, List.cons_append,
        List.cons.injEq]
      constructor
      · rintro ⟨rfl, t, rfl⟩
        exact ⟨t, rfl, rfl⟩
      · rintro ⟨t, rfl, rfl⟩
        exact ⟨rfl, t, rfl⟩

theorem occursIn_cons (pat : List Char) (c : Char) (rest : List Char) :
    occursIn pat (c :: rest) = (pat.isPrefixOf (c :: rest) || occursIn pat rest) := rfl

theorem occursIn_iff_ex (pat s : List Char) :
    occursIn pat s = true ↔ ∃ u v, s = u ++ pat ++ v := by
  induction s with
  | nil =>
    simp only [occursIn, List.isEmpty_iff]
    constructor
    · rintro rfl
      exact ⟨[], [], rfl⟩
    · rintro ⟨u, v, huv⟩
      have h2 := List.append_eq_nil.mp huv.symm
      exact (List.append_eq_nil.mp h2.1).2
  | cons c rest ih =>
    rw [occursIn_cons]
    simp only [Bool.or_eq_true, ih, isPrefixOf_iff_ex]
    constructor
    · rintro (⟨t, ht⟩ | ⟨u, v, rfl⟩)
      · exact ⟨[], t, by simpa using ht⟩
      · exact ⟨c :: u, v, rfl⟩
    · rintro ⟨u, v, h⟩
      cases u with
      | nil =>
        left
        exact ⟨v, by simpa using h⟩
      | cons x u' =>
        right
        rw [List.cons_append, List.cons_append, List.cons.injEq] at h
        exact ⟨u', v, h.2⟩

theorem occursIn_false_of_inner (p q s u v : List Char) (hq : q = u ++ p ++ v)
    (h : occursIn p s = false) : occursIn q s = false := by
  cases hqs : occursIn q s with
  | false => rfl
  | true =>
    exfalso
    obtain ⟨a, b, hab⟩ := (occursIn_iff_ex q s).mp hqs
    have : occursIn p s = true := by
      rw [occursIn_iff_ex]
      exact ⟨a ++ u, v ++ b, by rw [hab, hq]; simp [List.append_assoc]⟩
    rw [this] at h
    exact Bool.noConfusion h

theorem prAux_no_occur (pat s : List Char) (h : occursIn pat s = false) :
    prAux pat 0 s = s := by
  induction s with
  | nil => rfl
  | cons c rest ih =>
    rw [occursIn_cons] at h
    have h1 : pat.isPrefixOf (c :: rest) = false := by
      cases hp : pat.isPrefixOf (c :: rest) <;> simp [hp] at h ⊢
    have h2 : occursIn pat rest = false := by
      cases hp : occursIn pat rest <;> simp [hp] at h ⊢
    rw [prAux, if_neg (by simp [h1]), ih h2]

theorem pyReplaceAll_no_occur (pat s : List Char) (h : occursIn pat s = false) :
    pyReplaceAll pat s = s := by
  unfold pyReplaceAll
  split
  · rfl
  · exact prAux_no_occur pat s h

theorem ssAux_no_occur (marker : List Char) (s : List Char)
    (h : occursIn marker s = false) : ∀ b, ssAux marker 0 b s = s := by
  induction s with
  | nil => intro b; rfl
  | cons c rest ih =>
    rw [occursIn_cons] at h
    have h1 : marker.isPrefixOf (c :: rest) = false := by
      cases hp : marker.isPrefixOf (c :: rest) <;> simp [hp] at h ⊢
    have h2 : occursIn marker rest = false := by
      cases hp : occursIn marker rest <;> simp [hp] at h ⊢
    have hm : tryStandaloneLen marker (c :: rest) = none := by
      unfold tryStandaloneLen
      cases hE : marker.isEmpty with
      | true =>
        exfalso
        rw [List.isEmpty_iff.mp hE, List.isPrefixOf_nil_left] at h1
        exact Bool.noConfusion h1
      | false => simp [hE, h1]
    intro b
    cases b with
    | false =>
      rw [ssAux, ih h2]
      simp
    | true =>
      rw [ssAux, hm, ih h2]
      simp

theorem subStandalone_no_occur (marker s : List Char)
    (h : occursIn marker s = false) : subStandalone marker s = s :=
  ssAux_no_occur marker s h true

theorem spAux_no_occur (s : List Char) (h : occursIn openTag s = false) :
    spAux 0 s = s := by
  induction s with
  | nil => rfl
  | cons c rest ih =>
    rw [occursIn_cons] at h
    have h1 : openTag.isPrefixOf (c :: rest) = false := by
      cases hp : openTag.isPrefixOf (c :: rest) <;> simp [hp] at h ⊢
    have h2 : occursIn openTag rest = false := by
      cases hp : occursIn openTag rest <;> simp [hp] at h ⊢
    rw [spAux, if_neg (by simp [h1]), ih h2]

theorem subPaired_no_occur (s : List Char) (h : occursIn openTag s = false) :
    subPaired s = s :=
  spAux_no_occur s h

theorem emitNL_mem (n : Nat) (x : Char) (hx : x ∈ emitNL n) : x = '\n' := by
  unfold emitNL at hx
  split at hx
  · simpa using hx
  · exact List.eq_of_mem_replicate hx

theorem emitNL_zero : emitNL 0 = [] := by
  unfold emitNL
  norm_num

theorem collapseAux_head (s : List Char) : ∀ n, 1 ≤ n →
    ∃ t, collapseAux n s = '\n' :: t := by
  induction s with
  | nil =>
    intro n hn
    show ∃ t, emitNL n = '\n' :: t
    unfold emitNL
    split
    · exact ⟨['\n'], rfl⟩
    · cases n with
      | zero => omega
      | succ m => exact ⟨List.replicate m '\n', by rw [List.replicate_succ]⟩
  | cons c rest ih =>
    intro n hn
    cases hc : (c == '\n') with
    | true =>
      rw [collapseAux, hc]
      exact ih (n + 1) (by omega)
    | false =>
      rw [collapseAux, hc]
      simp only [Bool.false_eq_true, if_false]
      obtain ⟨t, ht⟩ : ∃ t, emitNL n = '\n' :: t := by
        unfold emitNL
        split
        · exact ⟨['\n'], rfl⟩
        · cases n with
          | zero => omega
          | succ m => exact ⟨List.replicate m '\n', by rw [List.replicate_succ]⟩
      exact ⟨t ++ c :: collapseAux 0 rest, by rw [ht]; rfl⟩

theorem collapseAux_pref : ∀ s pat : List Char, '\n' ∉ pat →
    pat.isPrefixOf (collapseAux 0 s) = true → pat.isPrefixOf s = true := by
  intro s
  induction s with
  | nil =>
    intro pat hnl h
    simpa [collapseAux, emitNL_zero] using h
  | cons c rest ih =>
    intro pat hnl h
    cases hc : (c == '\n') with
    | true =>
      cases pat with
      | nil => exact List.isPrefixOf_nil_left
      | cons p pt =>
        exfalso
        have hstep : collapseAux 0 (c :: rest) = collapseAux 1 rest := by
          rw [collapseAux, hc]
          simp
        rw [hstep] at h
        obtain ⟨t, ht⟩ := collapseAux_head rest 1 (le_refl 1)
        rw [ht, List.isPrefixOf_cons₂, Bool.and_eq_true, beq_iff_eq] at h
        exact hnl (h.1 ▸ List.mem_cons_self p pt)
    | false =>
      have hcoll : collapseAux 0 (c :: rest) = c :: collapseAux 0 rest := by
        rw [collapseAux, hc]
        simp [emitNL_zero]
      rw [hcoll] at h
      cases pat with
      | nil => exact List.isPrefixOf_nil_left
      | cons p pt =>
        rw [List.isPrefixOf_cons₂, Bool.and_eq_true] at h ⊢
        exact ⟨h.1, ih pt (fun hm => hnl (List.mem_cons_of_mem p hm)) h.2⟩

theorem occursIn_all_nl (pat : List Char) (hnl : '\n' ∉ pat) (hne : pat ≠ []) :
    ∀ A B : List Char, (∀ x ∈ A, x = '\n') →
    occursIn pat (A ++ B) = true → occursIn pat B = true := by
  intro A
  induction A with
  | nil => intro B _ h; simpa using h
  | cons a A' ih =>
    intro B hA h
    rw [List.cons_append, occursIn_cons, Bool.or_eq_true] at h
    cases h with
    | inl hp =>
      exfalso
      cases pat with
      | nil => exact hne rfl
      | cons p pt =>
        rw [List.isPrefixOf_cons₂, Bool.and_eq_true, beq_iff_eq] at hp
        have ha : a = '\n' := hA a (List.mem_cons_self a A')
        exact hnl ((hp.1.trans ha) ▸ List.mem_cons_self p pt)
    | inr h' => exact ih B (fun x hx => hA x (List.mem_cons_of_mem a hx)) h'

theorem collapseAux_occurs (pat : List Char) (hnl : '\n' ∉ pat) (hne : pat ≠ []) :
    ∀ (s : List Char) (n : Nat),
    occursIn pat (collapseAux n s) = true → occursIn pat s = true := by
  intro s
  induction s with
  | nil =>
    intro n h
    exfalso
    obtain ⟨u, v, huv⟩ := (occursIn_iff_ex pat _).mp h
    cases pat with
    | nil => exact hne rfl
    | cons p pt =>
      have hp : p ∈ emitNL n := by
        show p ∈ collapseAux n []
        rw [huv]
        simp
      exact hnl ((emitNL_mem n p hp) ▸ List.mem_cons_self p pt)
  | cons c rest ih =>
    intro n h
    cases hc : (c == '\n') with
    | true =>
      rw [collapseAux, hc] at h
      rw [occursIn_cons, Bool.or_eq_true]
      exact Or.inr (ih (n + 1) h)
    | false =>
      rw [collapseAux, hc] at h
      simp only [Bool.false_eq_true, if_false] at h
      have h2 : occursIn pat (c :: collapseAux 0 rest) = true :=
        occursIn_all_nl pat hnl hne (emitNL n) _ (emitNL_mem n) h
      rw [occursIn_cons, Bool.or_eq_true] at h2
      rw [occursIn_cons, Bool.or_eq_true]
      cases h2 with
      | inl hp =>
        left
        cases pat with
        | nil => exact List.isPrefixOf_nil_left
        | cons p pt =>
          rw [List.isPrefixOf_cons₂, Bool.and_eq_true] at hp ⊢
          exact ⟨hp.1, collapseAux_pref rest pt
            (fun hm => hnl (List.mem_cons_of_mem p hm)) hp.2⟩
      | inr h' => exact Or.inr (ih 0 h')

theorem collapseNewlines_no_occur (pat : List Char) (hnl : '\n' ∉ pat) (hne : pat ≠ [])
    (s : List Char) (h : occursIn pat s = false) :
    occursIn pat (collapseNewlines s) = false := by
  cases hres : occursIn pat (collapseNewlines s) with
  | false => rfl
  | true =>
    exfalso
    have := collapseAux_occurs pat hnl hne s 0 hres
    rw [this] at h
    exact Bool.noConfusion h

/-- Claim C2: on the spec's example input the cleanup filter is claimed to
produce `"\nVisible text\n\nMore text"`.  The code's actual output is
computed here: the standalone-line pass deletes the `# <think>` marker before
the paired-region removal runs, so the paired regex finds no opening marker
and the enclosed `secret` text survives, contradicting the function's own
docstring ("Removes all thinking parts (enclosed in <think> and </think>
tags)"). -/
theorem C2_cleanup_spec_example_actual_output :
    clean_lecture_notes_text "# <think>\nsecret\n</think>\nVisible text\n\n\n\nMore text"
      = "\nsecret\n\nVisible text\n\nMore text" := by decide

/-- Counterexample to claim C10: deleting an occurrence of `</think>` can
splice the surrounding characters into a brand-new `<think>` occurrence,
which survives into the cleaned output because Python's `str.replace` never
rescans already-emitted text. -/
theorem C10_counterexample_spliced_marker :
    clean_lecture_notes_text "<thi</think>nk>" = "<think>" ∧
    occursIn openTag (clean_notes ("<thi</think>nk>".data)) = true :=
  ⟨by decide, by decide⟩

/-- Claim C10 (amended): for every input text containing no occurrence of
`<think>` and no occurrence of `</think>`, the cleaned output contains
neither marker; in general the unconditional deletion step removes the
occurrences it scans, but a deletion can splice adjacent characters into a
new marker occurrence which then survives into the cleaned file. -/
theorem C10_amended_markers_absent (s : List Char)
    (h1 : occursIn openTag s = false) (h2 : occursIn closeTag s = false) :
    occursIn openTag (clean_notes s) = false ∧
    occursIn closeTag (clean_notes s) = false := by
  have hhash : occursIn ("# <think>".data) s = false :=
    occursIn_false_of_inner openTag _ s ("# ".data) [] (by decide) h1
  have hhash3 : occursIn ("### <think>".data) s = false :=
    occursIn_false_of_inner openTag _ s ("### ".data) [] (by decide) h1
  unfold clean_notes
  rw [subStandalone_no_occur _ _ hhash, subStandalone_no_occur _ _ hhash3,
    subStandalone_no_occur _ _ h2, subPaired_no_occur _ h1,
    pyReplaceAll_no_occur _ _ h1, pyReplaceAll_no_occur _ _ h2]
  exact ⟨collapseNewlines_no_occur _ (by decide) (by decide) s h1,
    collapseNewlines_no_occur _ (by decide) (by decide) s h2⟩

/-- Witness for the amended C10 at a concrete marker-free input. -/
theorem C10_amended_markers_absent_witness :
    occursIn openTag (clean_notes ("Visible\n\n\n\ntext".data)) = false ∧
    occursIn closeTag (clean_notes ("Visible\n\n\n\ntext".data)) = false :=
  C10_amended_markers_absent ("Visible\n\n\n\ntext".data) (by decide) (by decide)

/-!
### Transcription and stitching (`continue_transcription.py`, lines 190-241)

The external speech-to-text capability is passed in as an explicit outcome
per segment; timestamps are modelled as rationals.
-/

/-- One chunk returned by the capability: `{"text": ..., "timestamp": [t0, t1]}`
where either timestamp component may be `None`. -/
structure RawChunk where
  text : String
  ts0 : Option ℚ
  ts1 : Option ℚ
deriving DecidableEq, Repr

/-- Outcome of one `whisper_model(segment["path"], ...)` call: a dict with a
`"chunks"` key, a dict with only whole-segment `"text"`, or a raised
exception (caught by the per-segment `except` of lines 227-229). -/
inductive SegResult where
  | chunks (cs : List RawChunk)
  | text (t : String)
  | err (msg : String)
deriving DecidableEq, Repr

/-- One entry appended to `full_transcript` (lines 214-225). -/
structure TChunk where
  text : String
  start_time : ℚ
  end_time : Option ℚ
deriving DecidableEq, Repr

/-- Per-segment transcription (lines 196-229).  With chunk-level timestamps,
each local timestamp is offset by `segment_start_sec = start_ms / 1000`
(line 205); a `None` local start falls back to the bare segment start and a
`None` local end propagates as `None` (lines 211-212).  Without chunks a
single chunk spanning the whole segment is synthesized (lines 220-225).  A
raised exception contributes nothing (lines 227-229). -/
def processSegment (seg : Seg) (res : SegResult) : List TChunk :=
  match res with
  | .err _ => []
  | .chunks cs =>
    cs.map fun c =>
      { text := c.text
        start_time :=
          match c.ts0 with
          | some t => (seg.start_ms : ℚ) / 1000 + t
          | none => (seg.start_ms : ℚ) / 1000
        end_time :=
          match c.ts1 with
          | some t => some ((seg.start_ms : ℚ) / 1000 + t)
          | none => none }
  | .text t =>
    [{ text := t
       start_time := (seg.start_ms : ℚ) / 1000
       end_time := some ((seg.start_ms : ℚ) / 1000 + (seg.duration_ms : ℚ) / 1000) }]

/-- The `full_transcript` list accumulated over the segments in order (lines
190-229); segment `i` is paired with the `i`-th capability outcome. -/
def fullTranscript (segs : List Seg) (results : List SegResult) : List TChunk :=
  (segs.zip results).flatMap fun p => processSegment p.1 p.2

/-- The persisted transcript dict `transcript_result` (lines 235-241):
`duration_seconds = segments[-1]["end_ms"] / 1000 if segments else 0` and
`transcript_text = " ".join(item["text"] for item in full_transcript)`. -/
structure TranscriptResult where
  video_name : String
  duration_seconds : ℚ
  transcript : List TChunk
  transcript_text : String
deriving DecidableEq, Repr

/-- Builds the transcript artifact for one recording (lines 235-241). -/
def mkTranscript (name : String) (segs : List Seg) (results : List SegResult) :
    TranscriptResult :=
  { video_name := name
    duration_seconds :=
      match segs.getLast? with
      | some s => (s.end_ms : ℚ) / 1000
      | none => 0
    transcript := fullTranscript segs results
    transcript_text :=
      String.intercalate " " ((fullTranscript segs results).map (fun c => c.text)) }

theorem processSegment_chunks_length (seg : Seg) (cs : List RawChunk) :
    (processSegment seg (.chunks cs)).length = cs.length := by
  simp [processSegment]

theorem fullTranscript_cons (s : Seg) (st : List Seg) (r : SegResult)
    (rt : List SegResult) :
    fullTranscript (s :: st) (r :: rt) = processSegment s r ++ fullTranscript st rt := by
  simp [fullTranscript]

/-- Claim C5: when the capability returns chunk-level timestamps, the output
chunk at index `i` keeps its text, its absolute start time is the segment
start in seconds plus the local start timestamp, a present local end
timestamp is likewise offset, and a missing (`None`) local end yields an
absolute end of `None`, not a defaulted value. -/
theorem C5_absolute_timestamps (seg : Seg) (cs : List RawChunk) (i : Nat)
    (hi : i < cs.length) :
    (processSegment seg (.chunks cs)).length = cs.length ∧
    ((processSegment seg (.chunks cs)).get
        ⟨i, by rw [processSegment_chunks_length]; exact hi⟩).text
      = (cs.get ⟨i, hi⟩).text ∧
    (∀ t, (cs.get ⟨i, hi⟩).ts0 = some t →
      ((processSegment seg (.chunks cs)).get
          ⟨i, by rw [processSegment_chunks_length]; exact hi⟩).start_time
        = (seg.start_ms : ℚ) / 1000 + t) ∧
    (∀ t, (cs.get ⟨i, hi⟩).ts1 = some t →
      ((processSegment seg (.chunks cs)).get
          ⟨i, by rw [processSegment_chunks_length]; exact hi⟩).end_time
        = some ((seg.start_ms : ℚ) / 1000 + t)) ∧
    ((cs.get ⟨i, hi⟩).ts1 = none →
      ((processSegment seg (.chunks cs)).get
          ⟨i, by rw [processSegment_chunks_length]; exact hi⟩).end_time = none) := by
  refine ⟨processSegment_chunks_length seg cs, ?_, ?_, ?_, ?_⟩
  · simp [processSegment]
  · intro t ht
    simp only [List.get_eq_getElem] at ht
    simp [processSegment, ht]
  · intro t ht
    simp only [List.get_eq_getElem] at ht
    simp [processSegment, ht]
  · intro ht
    simp only [List.get_eq_getElem] at ht
    simp [processSegment, ht]

/-- Witness for C5 at a concrete segment and chunk list. -/
theorem C5_absolute_timestamps_witness :
    (processSegment ⟨30000, 60000, 30000⟩ (.chunks [⟨"hi", some 2, none⟩])).length = 1 ∧
    ((processSegment ⟨30000, 60000, 30000⟩
        (.chunks [⟨"hi", some 2, none⟩])).get ⟨0, by decide⟩).start_time = 32 ∧
    ((processSegment ⟨30000, 60000, 30000⟩
        (.chunks [⟨"hi", some 2, none⟩])).get ⟨0, by decide⟩).end_time = none := by
  have h := C5_absolute_timestamps ⟨30000, 60000, 30000⟩ [⟨"hi", some 2, none⟩] 0
    (by decide)
  refine ⟨h.1, ?_, h.2.2.2.2 (by decide)⟩
  have h2 := h.2.2.1 2 (by decide)
  rw [h2]
  norm_num

/-- Claim C6: a segment whose transcription call raises contributes nothing
to the stitched transcript: the full transcript equals the one computed with
that segment and its outcome removed, so the exception neither aborts the
recording nor disturbs the order of the remaining segments' chunks. -/
theorem C6_failed_segment_excluded (segs : List Seg) (results : List SegResult)
    (j : Nat) (hj : j < results.length) (m : String)
    (hlen : segs.length = results.length)
    (hfail : results.get ⟨j, hj⟩ = .err m) :
    fullTranscript segs results =
      fullTranscript (segs.eraseIdx j) (results.eraseIdx j) := by
  induction segs generalizing results j with
  | nil =>
    have : results = [] := List.length_eq_zero.mp hlen.symm
    subst this
    exact absurd hj (by simp)
  | cons s st ih =>
    cases results with
    | nil => exact absurd hj (by simp)
    | cons r rt =>
      cases j with
      | zero =>
        have hr : r = .err m := hfail
        subst hr
        rw [List.eraseIdx_cons_zero, List.eraseIdx_cons_zero, fullTranscript_cons]
        simp [processSegment]
      | succ j' =>
        have hj' : j' < rt.length := by simpa using hj
        have hlen' : st.length = rt.length := by simpa using hlen
        have hfail' : rt.get ⟨j', hj'⟩ = .err m := hfail
        rw [List.eraseIdx_cons_succ, List.eraseIdx_cons_succ, fullTranscript_cons,
          fullTranscript_cons, ih rt j' hj' hlen' hfail']

/-- Witness for C6: with the middle of three segments failing, the stitched
transcript equals the one for the other two segments. -/
theorem C6_failed_segment_excluded_witness :
    fullTranscript (makeSegments 65000)
        [SegResult.text "a", SegResult.err "boom", SegResult.text "c"]
      = fullTranscript ((makeSegments 65000).eraseIdx 1)
          ([SegResult.text "a", SegResult.err "boom", SegResult.text "c"].eraseIdx 1) :=
  C6_failed_segment_excluded (makeSegments 65000)
    [SegResult.text "a", SegResult.err "boom", SegResult.text "c"]
    1 (by decide) "boom" (by decide) (by decide)

theorem fullTranscript_all_err (segs : List Seg) (results : List SegResult)
    (h : ∀ r ∈ results, ∃ m, r = SegResult.err m) :
    fullTranscript segs results = [] := by
  induction segs generalizing results with
  | nil => simp [fullTranscript]
  | cons s st ih =>
    cases results with
    | nil => simp [fullTranscript]
    | cons r rt =>
      obtain ⟨m, rfl⟩ := h r (List.mem_cons_self r rt)
      rw [fullTranscript_cons, ih rt (fun x hx => h x (List.mem_cons_of_mem _ hx))]
      simp [processSegment]

/-- Claim C8: the produced transcript's `transcript_text` equals its own
chunks' texts joined by single spaces; `duration_seconds` is the last
segment's end offset divided by 1000, or 0 when the segment list is empty;
and a transcript value is produced even when all segment transcriptions
failed, then with an empty chunk list and empty text. -/
theorem C8_stitcher_contract (name : String) (segs : List Seg)
    (results : List SegResult) :
    (mkTranscript name segs results).transcript_text
      = String.intercalate " "
          ((mkTranscript name segs results).transcript.map (fun c => c.text)) ∧
    (∀ s, segs.getLast? = some s →
      (mkTranscript name segs results).duration_seconds = (s.end_ms : ℚ) / 1000) ∧
    (segs = [] → (mkTranscript name segs results).duration_seconds = 0) ∧
    ((∀ r ∈ results, ∃ m, r = SegResult.err m) →
      (mkTranscript name segs results).transcript = [] ∧
      (mkTranscript name segs results).transcript_text = "") := by
  refine ⟨rfl, ?_, ?_, ?_⟩
  · intro s hs
    simp [mkTranscript, hs]
  · intro hnil
    subst hnil
    simp [mkTranscript]
  · intro hallerr
    have h := fullTranscript_all_err segs results hallerr
    constructor
    · simpa [mkTranscript] using h
    · simp [mkTranscript, h]
      rfl

/-- Witness for C8 on the 65000 ms example with one text result and two
failures. -/
theorem C8_stitcher_contract_witness :
    (mkTranscript "lec1" (makeSegments 65000)
        [SegResult.err "x", SegResult.err "y", SegResult.err "z"]).transcript = [] ∧
    (mkTranscript "lec1" (makeSegments 65000)
        [SegResult.err "x", SegResult.err "y", SegResult.err "z"]).duration_seconds = 65 := by
  have h := C8_stitcher_contract "lec1" (makeSegments 65000)
    [SegResult.err "x", SegResult.err "y", SegResult.err "z"]
  refine ⟨(h.2.2.2 ?_).1, ?_⟩
  · intro r hr
    fin_cases hr
    · exact ⟨"x", rfl⟩
    · exact ⟨"y", rfl⟩
    · exact ⟨"z", rfl⟩
  · have h2 := h.2.1 ⟨60000, 65000, 5000⟩ (by decide)
    rw [h2]
    norm_num

/-- Segment list with no overlap: every segment ends (start plus duration) no
later than the next one starts.  Fresh segmentation satisfies this with
equality. -/
def segsOrdered (segs : List Seg) : Prop :=
  List.Chain' (fun a b => a.start_ms + a.duration_ms ≤ b.start_ms) segs

/-- Hypotheses on one capability outcome, from claim C9 strengthened with the
bound forced by its counterexample: chunk-level results carry present,
non-negative local start timestamps that do not exceed the segment's duration
in seconds and are non-decreasing within the segment.  Text and error
outcomes are unconstrained. -/
def goodResult (seg : Seg) (res : SegResult) : Prop :=
  match res with
  | .chunks cs =>
    (∀ c ∈ cs, c.ts0 ≠ none ∧ 0 ≤ c.ts0.getD 0 ∧
      c.ts0.getD 0 ≤ (seg.duration_ms : ℚ) / 1000) ∧
    List.Chain' (fun c c' => c.ts0.getD 0 ≤ c'.ts0.getD 0) cs
  | _ => True

theorem processSegment_chunk_start (seg : Seg) (c : RawChunk) :
    (match c.ts0 with
      | some t => (seg.start_ms : ℚ) / 1000 + t
      | none => (seg.start_ms : ℚ) / 1000)
    = (seg.start_ms : ℚ) / 1000 + c.ts0.getD 0 := by
  cases c.ts0 <;> simp

theorem processSegment_bounds (seg : Seg) (res : SegResult)
    (hres : goodResult seg res) :
    List.Chain' (fun a b => a.start_time ≤ b.start_time) (processSegment seg res) ∧
    ∀ c ∈ processSegment seg res,
      (seg.start_ms : ℚ) / 1000 ≤ c.start_time ∧
      c.start_time ≤ (seg.start_ms : ℚ) / 1000 + (seg.duration_ms : ℚ) / 1000 := by
  cases res with
  | err m => simp [processSegment]
  | text t =>
    refine ⟨by simp [processSegment], ?_⟩
    intro c hc
    simp only [processSegment, List.mem_singleton] at hc
    subst hc
    have hd : (0 : ℚ) ≤ (seg.duration_ms : ℚ) / 1000 := by positivity
    constructor
    · simp
    · simp only
      linarith
  | chunks cs =>
    obtain ⟨h1, h2⟩ := hres
    constructor
    · rw [processSegment, List.chain'_map]
      refine h2.imp ?_
      intro a b hab
      simp only [processSegment_chunk_start]
      linarith
    · intro c hc
      rw [processSegment, List.mem_map] at hc
      obtain ⟨a, ha, rfl⟩ := hc
      obtain ⟨-, h0, hdur⟩ := h1 a ha
      simp only [processSegment_chunk_start]
      constructor
      · linarith
      · linarith

theorem fullTranscript_mono (segs : List Seg) (results : List SegResult)
    (hord : segsOrdered segs)
    (hgood : ∀ p ∈ segs.zip results, goodResult p.1 p.2) :
    List.Chain' (fun a b => a.start_time ≤ b.start_time)
      (fullTranscript segs results) ∧
    ∀ c ∈ fullTranscript segs results, ∀ s0 ∈ segs.head?,
      (s0.start_ms : ℚ) / 1000 ≤ c.start_time := by
  induction segs generalizing results with
  | nil => simp [fullTranscript]
  | cons s st ih =>
    cases results with
    | nil => simp [fullTranscript]
    | cons r rt =>
      have hgr : goodResult s r := hgood (s, r) (by simp)
      have hb := processSegment_bounds s r hgr
      have hord' : segsOrdered st := hord.tail
      have ih' := ih rt hord' (fun p hp => hgood p (by simp [hp]))
      rw [fullTranscript_cons]
      constructor
      · rw [List.chain'_append]
        refine ⟨hb.1, ih'.1, ?_⟩
        intro x hx y hy
        have hxmem : x ∈ processSegment s r := List.mem_of_mem_getLast? hx
        have hxle := (hb.2 x hxmem).2
        have hymem : y ∈ fullTranscript st rt := List.mem_of_mem_head? hy
        cases st with
        | nil => simp [fullTranscript] at hymem
        | cons s1 st' =>
          have hrel : s.start_ms + s.duration_ms ≤ s1.start_ms :=
            (List.chain'_cons.mp hord).1
          have hyge := ih'.2 y hymem s1 rfl
          have hcast : ((s.start_ms : ℚ) + (s.duration_ms : ℚ)) / 1000
              ≤ (s1.start_ms : ℚ) / 1000 := by
            apply div_le_div_of_nonneg_right ?_ (by norm_num)
            exact_mod_cast hrel
          calc x.start_time
              ≤ (s.start_ms : ℚ) / 1000 + (s.duration_ms : ℚ) / 1000 := hxle
            _ = ((s.start_ms : ℚ) + (s.duration_ms : ℚ)) / 1000 := by ring
            _ ≤ (s1.start_ms : ℚ) / 1000 := hcast
            _ ≤ y.start_time := hyge
      · intro c hc s0 hs0
        have hs0' : s = s0 := by simpa using hs0
        subst hs0'
        rw [List.mem_append] at hc
        cases hc with
        | inl hcb => exact (hb.2 c hcb).1
        | inr hcr =>
          cases st with
          | nil => simp [fullTranscript] at hcr
          | cons s1 st' =>
            have hrel : s.start_ms + s.duration_ms ≤ s1.start_ms :=
              (List.chain'_cons.mp hord).1
            have hge := ih'.2 c hcr s1 rfl
            have hcast : (s.start_ms : ℚ) / 1000 ≤ (s1.start_ms : ℚ) / 1000 := by
              apply div_le_div_of_nonneg_right ?_ (by norm_num)
              exact_mod_cast Nat.le_trans (Nat.le_add_right _ _) hrel
            linarith

/-- Counterexample to claim C9 as stated: the claim's hypotheses (present,
non-negative local timestamps, non-decreasing within each segment) hold for
this environment, yet a local timestamp of 40 s inside the first 30 s window
makes the concatenated absolute start times `[40, 30]`, which is not
monotone. -/
theorem C9_counterexample_unbounded_local_timestamp :
    ((fullTranscript (makeSegments 60000)
        [SegResult.chunks [⟨"a", some 40, some 41⟩],
          SegResult.chunks [⟨"b", some 0, some 1⟩]]).map (fun c => c.start_time))
      = [40, 30] ∧
    ¬ List.Chain' (fun a b : ℚ => a ≤ b)
      ((fullTranscript (makeSegments 60000)
        [SegResult.chunks [⟨"a", some 40, some 41⟩],
          SegResult.chunks [⟨"b", some 0, some 1⟩]]).map (fun c => c.start_time)) := by
  have hsegs : makeSegments 60000 = [⟨0, 30000, 30000⟩, ⟨30000, 60000, 30000⟩] := by
    decide
  have h : ((fullTranscript (makeSegments 60000)
      [SegResult.chunks [⟨"a", some 40, some 41⟩],
        SegResult.chunks [⟨"b", some 0, some 1⟩]]).map (fun c => c.start_time))
      = [40, 30] := by
    rw [hsegs]
    simp [fullTranscript, processSegment]
    norm_num
  refine ⟨h, ?_⟩
  rw [h]
  simp [List.chain'_cons]
  norm_num

/-- Claim C9 (amended): assuming the capability returns present, non-negative
local start timestamps that are non-decreasing within each segment and do not
exceed the segment's duration in seconds, and the segments do not overlap,
the absolute start times of the concatenated transcript are monotonically
non-decreasing; moreover every chunk's absolute start time is at least its
segment's start offset over 1000, so a chunk of the segment at offset
30000 ms has `start_time ≥ 30`. -/
theorem C9_amended_monotone_timestamps (segs : List Seg)
    (results : List SegResult) (hord : segsOrdered segs)
    (hgood : ∀ p ∈ segs.zip results, goodResult p.1 p.2) :
    List.Chain' (fun a b => a.start_time ≤ b.start_time)
      (fullTranscript segs results) ∧
    ∀ p ∈ segs.zip results, ∀ c ∈ processSegment p.1 p.2,
      ((p.1).start_ms : ℚ) / 1000 ≤ c.start_time := by
  refine ⟨(fullTranscript_mono segs results hord hgood).1, ?_⟩
  intro p hp c hc
  exact ((processSegment_bounds p.1 p.2 (hgood p hp)).2 c hc).1

/-- Witness for the amended C9 on a two-segment recording with in-window
timestamps. -/
theorem C9_amended_monotone_timestamps_witness :
    List.Chain' (fun a b => a.start_time ≤ b.start_time)
      (fullTranscript (makeSegments 60000)
        [SegResult.chunks [⟨"a", some 1, some 2⟩],
          SegResult.chunks [⟨"b", some 3, none⟩]]) := by
  have hsegs : makeSegments 60000 = [⟨0, 30000, 30000⟩, ⟨30000, 60000, 30000⟩] := by
    decide
  refine (C9_amended_monotone_timestamps (makeSegments 60000)
    [SegResult.chunks [⟨"a", some 1, some 2⟩],
      SegResult.chunks [⟨"b", some 3, none⟩]] ?_ ?_).1
  · rw [segsOrdered, hsegs]
    simp [List.chain'_cons]
  · intro p hp
    rw [hsegs] at hp
    simp only [List.zip_cons_cons, List.zip_nil_right, List.mem_cons,
      List.not_mem_nil, or_false] at hp
    rcases hp with rfl | rfl
    · simp [goodResult]
      norm_num
    · simp [goodResult]
      norm_num

theorem reuseSegments_length (probes : List (Option Nat)) :
    (reuseSegments probes).length = probes.length := by
  simp [reuseSegments]

theorem reuse_of_fresh (D : Nat) :
    reuseSegments ((makeSegments D).map (fun s => some s.duration_ms))
      = makeSegments D := by
  apply List.ext_getElem
  · simp [reuseSegments, makeSegments]
  · intro i h1 h2
    have hin : i < num_segments D := by
      rw [length_makeSegments] at h2
      exact h2
    have hiW := lt_of_lt_num_segments D i hin
    simp only [reuseSegments, makeSegments, List.getElem_map, List.getElem_enum,
      List.getElem_range, Option.getD_some]
    rw [Seg.mk.injEq]
    refine ⟨rfl, ?_, rfl⟩
    simp only [segment_length_ms] at hiW ⊢
    omega

/-- Claim C7: re-invoking the Segmenter on an already-segmented recording
reuses the artifacts without re-splitting: when probing returns each
artifact's true duration, the reconstruction has the same count and the same
(start, end) offsets as the fresh segmentation; the count always equals the
number of artifacts; and a segment whose probe raises is assigned the
configured 30000 ms window length instead of its probed duration. -/
theorem C7_segmenter_idempotent (D : Nat) (probes : List (Option Nat)) (i : Nat)
    (hi : i < probes.length) :
    reuseSegments ((makeSegments D).map (fun s => some s.duration_ms))
      = makeSegments D ∧
    (reuseSegments probes).length = probes.length ∧
    (probes.get ⟨i, hi⟩ = none →
      ((reuseSegments probes).get
          ⟨i, by rw [reuseSegments_length]; exact hi⟩).duration_ms
        = segment_length_ms) ∧
    (∀ d, probes.get ⟨i, hi⟩ = some d →
      ((reuseSegments probes).get
          ⟨i, by rw [reuseSegments_length]; exact hi⟩).duration_ms = d) ∧
    ((reuseSegments probes).get
        ⟨i, by rw [reuseSegments_length]; exact hi⟩).start_ms
      = i * segment_length_ms := by
  refine ⟨reuse_of_fresh D, reuseSegments_length probes, ?_, ?_, ?_⟩
  · intro hnone
    simp only [List.get_eq_getElem] at hnone ⊢
    simp [reuseSegments, hnone]
  · intro d hd
    simp only [List.get_eq_getElem] at hd ⊢
    simp [reuseSegments, hd]
  · simp only [List.get_eq_getElem]
    simp [reuseSegments]

/-- Witness for C7 at the 65000 ms example, with the second probe failing. -/
theorem C7_segmenter_idempotent_witness :
    reuseSegments ((makeSegments 65000).map (fun s => some s.duration_ms))
      = makeSegments 65000 ∧
    ((reuseSegments [some 30000, none]).get ⟨1, by decide⟩).duration_ms
      = segment_length_ms := by
  have h := C7_segmenter_idempotent 65000 [some 30000, none] 1 (by decide)
  exact ⟨h.1, h.2.2.1 (by decide)⟩

/-!
### The per-recording loop, resume control and run log
(`continue_transcription.py`, lines 72-278)
-/

/-- Python `len(text.split())` (line 250): the number of maximal
whitespace-separated words. -/
def wcAux : Bool → List Char → Nat
  | _, [] => 0
  | inWord, c :: rest =>
    if c.isWhitespace then wcAux false rest
    else (if inWord then 0 else 1) + wcAux true rest

/-- Word count of the transcript text, as logged in a success entry. -/
def wordCount (s : List Char) : Nat := wcAux false s

/-- How the environment resolves the segmentation phase of one recording
(lines 119-188): a fresh split of a readable source of the given duration, a
raised exception while reading or splitting the source (caught by the inner
`except` of lines 186-188), or reuse of existing artifacts with the given
probe outcomes. -/
inductive SegOutcome where
  | fresh (D : Nat)
  | freshFail (msg : String)
  | reuse (probes : List (Option Nat))
deriving DecidableEq, Repr

/-- Environment for one recording: how segmentation resolves, the
per-segment capability outcomes, and whether some later step inside the outer
`try` (for example writing the transcript file) raises and reaches the outer
`except` of lines 255-261. -/
structure RecEnv where
  segOutcome : SegOutcome
  segResults : List SegResult
  outerRaise : Option String
deriving DecidableEq, Repr

/-- One entry of the run log's `results` list: the success shape of lines
247-252 or the error shape of lines 257-261. -/
inductive ItemResult where
  | success (wordCount : Nat)
  | error (msg : String)
deriving DecidableEq, Repr

/-- The segment list produced by the segmentation phase, `none` when the
fresh split raised. -/
def SegOutcome.segments : SegOutcome → Option (List Seg)
  | .fresh D => some (makeSegments D)
  | .freshFail _ => none
  | .reuse probes => some (reuseSegments probes)

/-- Processing of one recording inside the loop (lines 92-261).  A fresh
segmentation failure prints and `continue`s, producing no results entry and
no transcript (lines 186-188); an exception reaching the outer handler
produces an error entry (lines 255-261); otherwise the transcript artifact is
built and a success entry with its word count is appended (lines 231-253).
Returns the optional results entry and the optional transcript. -/
def runRecording (name : String) (env : RecEnv) :
    Option ItemResult × Option TranscriptResult :=
  match env.segOutcome.segments with
  | none => (none, none)
  | some segs =>
    match env.outerRaise with
    | some msg => (some (.error msg), none)
    | none =>
      let tr := mkTranscript name segs env.segResults
      (some (.success (wordCount tr.transcript_text.data)), some tr)

/-- The `results` list accumulated over the loop in order; entries are
appended only on the success path and in the outer `except`. -/
def collectResults : List (String × RecEnv) → List (String × ItemResult)
  | [] => []
  | (n, e) :: rest =>
    match (runRecording n e).1 with
    | none => collectResults rest
    | some r => (n, r) :: collectResults rest

/-- Whether a results entry has `"status": "success"`. -/
def ItemResult.isSuccess : ItemResult → Bool
  | .success _ => true
  | .error _ => false

/-- The run log `log_data` (lines 266-272): `total_files` counts the
untranscribed files, `success_count` is incremented exactly once per success
entry, and `results` is the per-item outcome list. -/
structure RunLog where
  total_files : Nat
  success_count : Nat
  results : List (String × ItemResult)
deriving DecidableEq, Repr

/-- The loop over all pending recordings plus the final log (lines 89-278). -/
def runPipeline (items : List (String × RecEnv)) : RunLog :=
  { total_files := items.length
    success_count :=
      ((collectResults items).filter (fun p => p.2.isSuccess)).length
    results := collectResults items }

/-- Identifier derived from a transcript filename stem (line 76):
`path.stem.replace("_transcript", "")` deletes every occurrence of the
substring `_transcript`, not only a final suffix. -/
def transcriptId (stem : String) : String :=
  String.mk (pyReplaceAll ("_transcript".data) stem.data)

/-- The resume filter (lines 72-79): keep, in discovery order, the audio
stems that do not occur among the identifiers derived from the existing
transcript artifact stems. -/
def untranscribedFiles (audioStems tStems : List String) : List String :=
  audioStems.filter (fun a => !((tStems.map transcriptId).contains a))

/-- Follows the wording of claim C4 for comparison ("transcript identifiers
derived by stripping the fixed `_transcript` suffix"): removes one final
`_transcript` suffix from the stem, leaving other occurrences intact. -/
def transcriptIdSpec (stem : String) : String :=
  if ("_transcript".data).isSuffixOf stem.data then
    String.mk (stem.data.take (stem.data.length - ("_transcript".data).length))
  else stem

/-- The resume filter as claim C4 words it, with suffix-stripped
identifiers. -/
def untranscribedFilesSpec (audioStems tStems : List String) : List String :=
  audioStems.filter (fun a => !((tStems.map transcriptIdSpec).contains a))

/-- Overall result of `continue_transcription` once the model is loaded:
either the early `{"message": "All files already transcribed"}` return of
lines 82-84 or the final run log. -/
inductive PipelineOutput where
  | allTranscribed
  | ranLog (log : RunLog)
deriving DecidableEq, Repr

/-- The pipeline after model loading (lines 72-278): filter the untranscribed
files, report nothing-to-do when none remain, otherwise run the loop.  The
environment function supplies each recording's external-world outcomes. -/
def continue_transcription (audioStems tStems : List String)
    (env : String → RecEnv) : PipelineOutput :=
  if (untranscribedFiles audioStems tStems).isEmpty then .allTranscribed
  else
    .ranLog (runPipeline
      ((untranscribedFiles audioStems tStems).map (fun n => (n, env n))))

/-- Counterexample to claim C3: a recording whose source audio cannot be read
or split hits the inner `except ... continue` of lines 186-188, which records
nothing: a one-recording run ends with `total_files = 1` but an empty
`results` list — no error entry exists for the skipped recording. -/
theorem C3_counterexample_no_error_entry :
    (runPipeline [("lec1", ⟨.freshFail "unreadable", [], none⟩)]).results = [] ∧
    (runPipeline [("lec1", ⟨.freshFail "unreadable", [], none⟩)]).total_files = 1 ∧
    (runPipeline [("lec1", ⟨.freshFail "unreadable", [], none⟩)]).success_count = 0 :=
  ⟨rfl, rfl, rfl⟩

theorem collectResults_eraseIdx_freshFail :
    ∀ (items : List (String × RecEnv)) (i : Nat) (hi : i < items.length),
    (∃ m, (items.get ⟨i, hi⟩).2.segOutcome = .freshFail m) →
    collectResults items = collectResults (items.eraseIdx i) := by
  intro items
  induction items with
  | nil =>
    intro i hi _
    exact absurd hi (by simp)
  | cons p rest ih =>
    intro i hi hfail
    obtain ⟨n, e⟩ := p
    cases i with
    | zero =>
      obtain ⟨m, hm⟩ := hfail
      have hm' : e.segOutcome = SegOutcome.freshFail m := hm
      have h1 : (runRecording n e).1 = none := by
        simp [runRecording, SegOutcome.segments, hm']
      rw [List.eraseIdx_cons_zero]
      simp only [collectResults, h1]
    | succ i' =>
      have hi' : i' < rest.length := by simpa using hi
      have hfail' : ∃ m, (rest.get ⟨i', hi'⟩).2.segOutcome = .freshFail m := hfail
      rw [List.eraseIdx_cons_succ]
      simp only [collectResults]
      rw [ih i' hi' hfail']

/-- Claim C3 (amended): a recording whose segmentation raises is skipped and
processing continues with the next recording — the run log's `results` and
`success_count` are exactly those of the run without that recording — but,
contrary to the claim, no error entry is recorded for it (only `total_files`
still counts it); segmentation failures bypass the outer per-item error
handler. -/
theorem C3_amended_skip_and_continue (items : List (String × RecEnv)) (i : Nat)
    (hi : i < items.length)
    (hfail : ∃ m, (items.get ⟨i, hi⟩).2.segOutcome = .freshFail m) :
    (runPipeline items).results = (runPipeline (items.eraseIdx i)).results ∧
    (runPipeline items).success_count
      = (runPipeline (items.eraseIdx i)).success_count ∧
    (runPipeline items).total_files = items.length := by
  have key := collectResults_eraseIdx_freshFail items i hi hfail
  refine ⟨?_, ?_, rfl⟩
  · simpa [runPipeline] using key
  · simp only [runPipeline]
    rw [key]

/-- Witness for the amended C3: the failing first recording leaves exactly
the second one's success entry. -/
theorem C3_amended_skip_and_continue_witness :
    (runPipeline [("bad", ⟨.freshFail "unreadable", [], none⟩),
        ("good", ⟨.fresh 1000, [SegResult.text "hello world"], none⟩)]).results
      = (runPipeline [("good",
          ⟨.fresh 1000, [SegResult.text "hello world"], none⟩)]).results ∧
    (runPipeline [("bad", ⟨.freshFail "unreadable", [], none⟩),
        ("good", ⟨.fresh 1000, [SegResult.text "hello world"], none⟩)]).success_count
      = (runPipeline [("good",
          ⟨.fresh 1000, [SegResult.text "hello world"], none⟩)]).success_count ∧
    (runPipeline [("bad", ⟨.freshFail "unreadable", [], none⟩),
        ("good", ⟨.fresh 1000, [SegResult.text "hello world"], none⟩)]).total_files
      = 2 :=
  C3_amended_skip_and_continue
    [("bad", ⟨.freshFail "unreadable", [], none⟩),
      ("good", ⟨.fresh 1000, [SegResult.text "hello world"], none⟩)]
    0 (by decide) ⟨"unreadable", rfl⟩

/-- Counterexample to claim C4: for a recording named `x_transcript`, the
transcript artifact written by a prior run has stem
`x_transcript_transcript`; `replace("_transcript", "")` collapses it to `x`
rather than to the suffix-stripped `x_transcript`, so the code re-lists the
recording although its transcript exists, while the claim's suffix-stripping
derivation would return the empty work list. -/
theorem C4_counterexample_replace_not_suffix_strip :
    transcriptId "x_transcript_transcript" = "x" ∧
    untranscribedFiles ["x_transcript"] ["x_transcript_transcript"]
      = ["x_transcript"] ∧
    untranscribedFilesSpec ["x_transcript"] ["x_transcript_transcript"] = [] :=
  ⟨by decide, by decide, by decide⟩

/-- Claim C4 (amended): the Resume Controller returns exactly the audio stems
that do not occur among the transcript identifiers derived by deleting every
occurrence of `_transcript` from the transcript stems (Python `str.replace`,
not suffix stripping), preserving discovery order (the output is a sublist of
the input); on audio {A,B,C} with transcript {A} it returns [B,C]; and when
no work remains the pipeline returns the nothing-to-do message rather than an
error. -/
theorem C4_amended_resume_controller (audioStems tStems : List String)
    (a : String) (env : String → RecEnv) :
    (a ∈ untranscribedFiles audioStems tStems ↔
      a ∈ audioStems ∧ ¬ a ∈ tStems.map transcriptId) ∧
    (untranscribedFiles audioStems tStems).Sublist audioStems ∧
    untranscribedFiles ["A", "B", "C"] ["A_transcript"] = ["B", "C"] ∧
    (untranscribedFiles audioStems tStems = [] →
      continue_transcription audioStems tStems env = .allTranscribed) := by
  refine ⟨?_, List.filter_sublist _, by decide, ?_⟩
  · simp [untranscribedFiles, List.mem_filter]
  · intro h
    simp [continue_transcription, h]

/-- Witness for the amended C4: the worked example and the nothing-to-do
case. -/
theorem C4_amended_resume_controller_witness :
    untranscribedFiles ["A", "B", "C"] ["A_transcript"] = ["B", "C"] ∧
    continue_transcription ["A"] ["A_transcript"]
      (fun _ => ⟨.fresh 0, [], none⟩) = .allTranscribed := by
  have h := C4_amended_resume_controller ["A"] ["A_transcript"] "A"
    (fun _ => ⟨.fresh 0, [], none⟩)
  exact ⟨h.2.2.1, h.2.2.2 (by decide)⟩

end LectureNotes
